import Mathlib

/-!
Shallow embedding of the `query-range` Rust crate (files
`src/range/utility.rs` and `src/range/query_range_iterator.rs`).

Strings are modelled as `List Char` (one element per byte; all offsets in the
source are raw byte offsets, so the element type is irrelevant to the claims).
The offset type `usize` is modelled as `Nat` together with explicit checked
arithmetic that fails at `2 ^ 64` exactly where `usize::checked_add` /
`usize::checked_sub` fail.
-/

namespace QueryRange

/-- Number of values of the Rust `usize` type: `2 ^ 64` on a 64-bit target. -/
def USIZE : Nat := 18446744073709551616

/-- Model of `usize::checked_add`: fails when the sum does not fit in `usize`. -/
def checked_add (a b : Nat) : Option Nat :=
  if a + b < USIZE then some (a + b) else none

/-- Model of `usize::checked_sub`: fails when the subtraction would underflow. -/
def checked_sub (a b : Nat) : Option Nat :=
  if b ≤ a then some (a - b) else none

/-- Model of Rust `std::ops::Range<usize>`: a half-open interval of offsets.
The field `stop` plays the role of the Rust field `end` (a Lean keyword). -/
structure Rg where
  start : Nat
  stop : Nat
deriving DecidableEq, Repr

/-- Model of `enum Shift<T>` from `utility.rs`, at `T = usize`. -/
inductive Shift where
  | up (amount : Nat)
  | down (amount : Nat)

/-- Model of `Shift::apply_to_number` from `utility.rs`. -/
def apply_to_number (sh : Shift) (number : Nat) : Option Nat :=
  match sh with
  | Shift.up amount => checked_add number amount
  | Shift.down amount => checked_sub number amount

/-- Model of `Shift::apply_to_range` from `utility.rs`: shifts both endpoints
with checked arithmetic, failing if either endpoint overflows/underflows. -/
def apply_to_range (sh : Shift) (range : Rg) : Option Rg :=
  let new_start :=
    match sh with
    | Shift.up amount => checked_add range.start amount
    | Shift.down amount => checked_sub range.start amount
  let new_stop :=
    match sh with
    | Shift.up amount => checked_add range.stop amount
    | Shift.down amount => checked_sub range.stop amount
  match new_start, new_stop with
  | some ns, some ne => some (Rg.mk ns ne)
  | _, _ => none

/-- Model of `shift_range` from `utility.rs`. -/
def shift_range (range : Rg) (shift : Shift) : Option Rg :=
  apply_to_range shift range

/-- Model of `is_within` from `utility.rs` at `T = usize` (where `to_usize`
always succeeds): only the range's end is compared with the content length. -/
def is_within (content : List Char) (range : Rg) : Bool :=
  if range.stop > content.length then false else true

/-- Model of `shift_range_in_content` from `utility.rs`. -/
def shift_range_in_content (range : Rg) (shift : Shift) (content : List Char) :
    Option Rg :=
  match shift_range range shift with
  | some new_range => if is_within content new_range then some new_range else none
  | none => none

/-- Helper modelling byte-for-byte matching of `query` at the head of a
window, as Rust's `str::find` does at each candidate position. -/
def startsWithSeq : List Char → List Char → Bool
  | [], _ => true
  | _ :: _, [] => false
  | q :: qs, c :: cs => if q = c then startsWithSeq qs cs else false

/-- Model of Rust `content.find(query)` for literal string patterns: byte
index of the first occurrence, `some 0` for the empty query. -/
def findSub (q : List Char) (c : List Char) : Option Nat :=
  if startsWithSeq q c then some 0
  else
    match c with
    | [] => none
    | _ :: t => (findSub q t).map (fun i => i + 1)

/-- Model of `get_range` from `utility.rs`. -/
def get_range (query content : List Char) : Option Rg :=
  match findSub query content with
  | some start =>
      if start + query.length > content.length then none
      else some (Rg.mk start (start + query.length))
  | none => none

/-- Substring of `content` at `range` (Rust `&content[range]`). -/
def sliceAt (content : List Char) (range : Rg) : List Char :=
  (content.drop range.start).take (range.stop - range.start)

/-- Model of the `QueryRangeItr` struct from `query_range_iterator.rs`. -/
structure Itr where
  inverted : Bool
  query : List Char
  current_content : List Char
  full_content : List Char
  removed_count : Nat
deriving DecidableEq, Repr

/-- Model of `QueryRangeItr::new_base`. -/
def new_base (query content : List Char) (inverted : Bool) : Itr :=
  Itr.mk inverted query content content 0

/-- Model of `QueryRangeItr::new` (matches mode). -/
def new (query content : List Char) : Itr :=
  new_base query content false

/-- Model of `QueryRangeItr::new_inverted` (gaps mode). -/
def new_inverted (query content : List Char) : Itr :=
  new_base query content true

/-- Model of `QueryRangeItr::next_standard`.  Returns the yielded item (if
any) together with the successor state; state is unchanged on every branch
that yields nothing, exactly as in the source. -/
def next_standard (s : Itr) : Option Rg × Itr :=
  match get_range s.query s.current_content with
  | some range =>
      if is_within s.current_content range then
        let next_start := range.stop
        match shift_range_in_content range (Shift.up s.removed_count) s.full_content with
        | some shifted =>
            let start_len := s.current_content.length
            let cc := s.current_content.drop next_start
            (some shifted,
              Itr.mk s.inverted s.query cc s.full_content
                (s.removed_count + (start_len - cc.length)))
        | none => (none, s)
      else (none, s)
  | none => (none, s)

/-- Model of `QueryRangeItr::next_inverted`.  The state advances even on the
branch that yields nothing, exactly as in the source (the mutation of
`current_content` and `removed_count` precedes the final `if`). -/
def next_inverted (s : Itr) : Option Rg × Itr :=
  let current_content := s.current_content
  let len := current_content.length
  let range := (get_range s.query current_content).getD (Rg.mk len len)
  let end_index := range.start
  let next_start := min range.stop len
  let possible_range := shift_range (Rg.mk 0 end_index) (Shift.up s.removed_count)
  let cc := current_content.drop next_start
  let s' := Itr.mk s.inverted s.query cc s.full_content
    (s.removed_count + (len - cc.length))
  (if len > 0 then possible_range else none, s')

/-- Model of `<QueryRangeItr as Iterator>::next`. -/
def step (s : Itr) : Option Rg × Itr :=
  if s.inverted then next_inverted s else next_standard s

/-- State of the iterator after `n` calls to `next`. -/
def stepN (s : Itr) : Nat → Itr
  | 0 => s
  | n + 1 => stepN (step s).2 n

/-- Item produced by the `(n+1)`-st call to `next` (0-indexed). -/
def yieldAt (s : Itr) (n : Nat) : Option Rg :=
  (step (stepN s n)).1

/-- Fuel-bounded drain of the iterator, collecting items until a call yields
nothing.  With fuel `content.length + 1` this is exactly the (finite) list of
all items the Rust iterator ever yields, whenever iteration terminates. -/
def collect (fuel : Nat) (s : Itr) : List Rg :=
  match fuel with
  | 0 => []
  | fuel + 1 =>
      match step s with
      | (some r, s') => r :: collect fuel s'
      | (none, _) => []

/-- Complete run of the iterator in the given mode (see `collect`). -/
def runOf (query content : List Char) (inverted : Bool) : List Rg :=
  collect (content.length + 1) (new_base query content inverted)

/-- Specification-side list of the leftmost-first non-overlapping occurrences
of `q` in the window `w`, in absolute coordinates (`base` = number of bytes
of the full content that precede `w`).  Fuel-bounded; fuel `w.length + 1`
suffices whenever `q` is non-empty. -/
def occsAux (q : List Char) : Nat → Nat → List Char → List Rg
  | 0, _, _ => []
  | fuel + 1, base, w =>
      match findSub q w with
      | none => []
      | some s =>
          Rg.mk (base + s) (base + s + q.length) ::
            occsAux q fuel (base + s + q.length) (w.drop (s + q.length))

/-- The leftmost-first non-overlapping occurrences of `q` in `c`. -/
def occList (q c : List Char) : List Rg :=
  occsAux q (c.length + 1) 0 c

/-- Specification-side list of the gap ranges the gaps-mode iterator yields
over the window `w` (mirrors `next_inverted` step by step). -/
def gapsAux (q : List Char) : Nat → Nat → List Char → List Rg
  | 0, _, _ => []
  | fuel + 1, base, w =>
      if w.length = 0 then []
      else
        match findSub q w with
        | none => [Rg.mk base (base + w.length)]
        | some s =>
            Rg.mk base (base + s) ::
              gapsAux q fuel (base + s + q.length) (w.drop (s + q.length))

/-- The gap ranges yielded by the gaps-mode iterator over all of `c`. -/
def gapList (q c : List Char) : List Rg :=
  gapsAux q (c.length + 1) 0 c

/-- Specification-side interleaving of gaps and matches: the contiguous
partition of the window into gap/match/gap/…/match/trailing-gap pieces,
omitting the trailing gap when the window ends at a match. -/
def chainAux (q : List Char) : Nat → Nat → List Char → List Rg
  | 0, _, _ => []
  | fuel + 1, base, w =>
      if w.length = 0 then []
      else
        match findSub q w with
        | none => [Rg.mk base (base + w.length)]
        | some s =>
            Rg.mk base (base + s) :: Rg.mk (base + s) (base + s + q.length) ::
              chainAux q fuel (base + s + q.length) (w.drop (s + q.length))

/-- Absolute end position of the last occurrence in a list of ranges
(`d` when the list is empty). -/
def lastEnd : List Rg → Nat → Nat
  | [], d => d
  | r :: l, _ => lastEnd l r.stop

/-- A tagged run, as built by `transform`: an output segment paired with the
start offset of the range it came from. -/
def TaggedRun : Type := List Char × Nat

/-- Model of `sort_unstable_by(|s1, s2| s1.1.cmp(&s2.1))` on tagged runs: a
sort ascending by start offset.  `sort_unstable_by` guarantees nothing about
the order of ties, so any sort is a faithful instance; we use `mergeSort`. -/
def sortRuns (l : List (List Char × Nat)) : List (List Char × Nat) :=
  l.mergeSort (fun a b => decide (a.2 ≤ b.2))

/-- Model of `QueryRangeItr::transform`.  Draining the two iterators to a
`Vec` is modelled by `runOf`; this is exact whenever iteration terminates
(see the termination claim: it does for every non-empty query, and the Rust
`collect` never returns for an empty query). -/
def transform (query content : List Char) (tf : List Char → List Char)
    (invert : Bool) : List Char :=
  let selects := runOf query content invert
  let non_selects := runOf query content (!invert)
  let selected_subs := selects.map (fun r => (tf (sliceAt content r), r.start))
  let non_selected_subs := non_selects.map (fun r => (sliceAt content r, r.start))
  let merged := selected_subs ++ non_selected_subs
  let sorted := sortRuns merged
  (sorted.map (fun p => p.1)).flatten

/-- Model of `QueryRangeItr::transform_query`. -/
def transform_query (query content : List Char) (tf : List Char → List Char) :
    List Char :=
  transform query content tf false

/-- Model of `QueryRangeItr::transform_other`. -/
def transform_other (query content : List Char) (tf : List Char → List Char) :
    List Char :=
  transform query content tf true

/-- Model of `QueryRangeItr::transform_all` (two-pass transform). -/
def transform_all (query content : List Char)
    (tq tnq : List Char → List Char) : List Char :=
  let transformed_content := transform query content tq false
  let transformed_query := tq query
  transform transformed_query transformed_content tnq true

/-- Contiguous-partition predicate for tagged runs: starting at offset `pos`,
the runs tile `content` exactly up to offset `n`, each run being the actual
substring of `content` at its place. -/
def RunsTile (content : List Char) : Nat → List (List Char × Nat) → Nat → Prop
  | pos, [], n => pos = n
  | pos, p :: M, n =>
      p.2 = pos ∧ p.1 = sliceAt content (Rg.mk pos (pos + p.1.length)) ∧
        RunsTile content (pos + p.1.length) M n

/-- Reachable iterator state: window = suffix of `c` starting at offset `r`. -/
def mkSt (inv : Bool) (q c : List Char) (r : Nat) : Itr :=
  Itr.mk inv q (c.drop r) c r

theorem startsWithSeq_length {q c : List Char} (h : startsWithSeq q c = true) :
    q.length ≤ c.length := by
  induction q generalizing c with
  | nil => simp
  | cons a qs ih =>
      cases c with
      | nil => simp [startsWithSeq] at h
      | cons b cs =>
          simp only [startsWithSeq] at h
          split at h
          · simpa using ih h
          · exact absurd h (by simp)

theorem startsWithSeq_take {q c : List Char} (h : startsWithSeq q c = true) :
    c.take q.length = q := by
  induction q generalizing c with
  | nil => simp
  | cons a qs ih =>
      cases c with
      | nil => simp [startsWithSeq] at h
      | cons b cs =>
          simp only [startsWithSeq] at h
          split at h
          · rename_i heq
            simp [heq, ih h]
          · exact absurd h (by simp)

theorem findSub_bound {q c : List Char} {s : Nat} (h : findSub q c = some s) :
    s + q.length ≤ c.length := by
  induction c generalizing s with
  | nil =>
      rw [findSub] at h
      split at h
      · rename_i hs
        simp only [Option.some.injEq] at h
        subst h
        simpa using startsWithSeq_length hs
      · simp at h
  | cons b cs ih =>
      rw [findSub] at h
      split at h
      · rename_i hs
        simp only [Option.some.injEq] at h
        subst h
        simpa using startsWithSeq_length hs
      · simp only [Option.map_eq_some'] at h
        obtain ⟨s', hs', rfl⟩ := h
        have := ih hs'
        simp only [List.length_cons]
        omega

theorem findSub_take {q c : List Char} {s : Nat} (h : findSub q c = some s) :
    (c.drop s).take q.length = q := by
  induction c generalizing s with
  | nil =>
      rw [findSub] at h
      split at h
      · rename_i hs
        simp only [Option.some.injEq] at h
        subst h
        simpa using startsWithSeq_take hs
      · simp at h
  | cons b cs ih =>
      rw [findSub] at h
      split at h
      · rename_i hs
        simp only [Option.some.injEq] at h
        subst h
        simpa using startsWithSeq_take hs
      · simp only [Option.map_eq_some'] at h
        obtain ⟨s', hs', rfl⟩ := h
        simpa using ih hs'

theorem findSub_nil {q : List Char} (hq : q ≠ []) : findSub q [] = none := by
  cases q with
  | nil => exact absurd rfl hq
  | cons a qs => rw [findSub]; simp [startsWithSeq]

theorem get_range_of_findSub {q c : List Char} {s : Nat}
    (h : findSub q c = some s) :
    get_range q c = some (Rg.mk s (s + q.length)) := by
  have hb := findSub_bound h
  rw [get_range, h]
  simp only
  rw [if_neg (by omega)]

theorem get_range_none {q c : List Char} (h : findSub q c = none) :
    get_range q c = none := by
  rw [get_range, h]

theorem sliceAt_occ {q c : List Char} {r s : Nat}
    (h : findSub q (c.drop r) = some s) :
    sliceAt c (Rg.mk (r + s) (r + s + q.length)) = q := by
  have ht := findSub_take h
  rw [sliceAt]
  simp only
  rw [Nat.add_sub_cancel_left]
  rw [← List.drop_drop]
  exact ht

theorem is_within_true_of {c : List Char} {a b : Nat} (h : b ≤ c.length) :
    is_within c (Rg.mk a b) = true := by
  rw [is_within]
  apply if_neg
  simp only [gt_iff_lt, not_lt]
  exact h

theorem checked_add_of_lt {a b : Nat} (h : a + b < USIZE) :
    checked_add a b = some (a + b) := by
  rw [checked_add, if_pos h]

theorem shift_up_in_content_eq {c : List Char} {a b k : Nat} (hab : a ≤ b)
    (hb : b + k ≤ c.length) (hlen : c.length < USIZE) :
    shift_range_in_content (Rg.mk a b) (Shift.up k) c =
      some (Rg.mk (a + k) (b + k)) := by
  have hca1 : checked_add a k = some (a + k) := checked_add_of_lt (by omega)
  have hca2 : checked_add b k = some (b + k) := checked_add_of_lt (by omega)
  have hiw : is_within c (Rg.mk (a + k) (b + k)) = true := is_within_true_of (by omega)
  simp only [shift_range_in_content, shift_range, apply_to_range, hca1, hca2, hiw,
    if_true]

theorem step_std_found {q c : List Char} {r s : Nat} (hr : r ≤ c.length)
    (hlen : c.length < USIZE) (h : findSub q (c.drop r) = some s) :
    step (mkSt false q c r) =
      (some (Rg.mk (s + r) (s + q.length + r)), mkSt false q c (r + (s + q.length))) := by
  have hb := findSub_bound h
  rw [List.length_drop] at hb
  have h1 : is_within (c.drop r) (Rg.mk s (s + q.length)) = true := by
    apply is_within_true_of
    simp only [List.length_drop]
    omega
  have h2 : shift_range_in_content (Rg.mk s (s + q.length)) (Shift.up r) c =
      some (Rg.mk (s + r) (s + q.length + r)) :=
    shift_up_in_content_eq (by omega) (by omega) hlen
  simp only [step, mkSt, next_standard, get_range_of_findSub h, h1, h2, if_true,
    Bool.false_eq_true, if_false, List.drop_drop, List.length_drop,
    Prod.mk.injEq, Option.some.injEq, Rg.mk.injEq, Itr.mk.injEq,
    eq_self_iff_true, true_and, and_true]
  omega

theorem step_std_none {q c : List Char} {r : Nat}
    (h : findSub q (c.drop r) = none) :
    step (mkSt false q c r) = (none, mkSt false q c r) := by
  simp only [step, mkSt, next_standard, get_range_none h, Bool.false_eq_true,
    if_false]

theorem step_inv_found {q c : List Char} {r s : Nat} (hr : r ≤ c.length)
    (hwin : c.length - r ≠ 0)
    (hlen : c.length < USIZE) (h : findSub q (c.drop r) = some s) :
    step (mkSt true q c r) =
      (some (Rg.mk (0 + r) (s + r)), mkSt true q c (r + (s + q.length))) := by
  have hb := findSub_bound h
  rw [List.length_drop] at hb
  have hca1 : checked_add 0 r = some (0 + r) := checked_add_of_lt (by omega)
  have hca2 : checked_add s r = some (s + r) := checked_add_of_lt (by omega)
  have hmin : min (s + q.length) (c.length - r) = s + q.length := by omega
  have hpos : c.length - r > 0 := by omega
  simp only [step, mkSt, next_inverted, get_range_of_findSub h, Option.getD_some,
    shift_range, apply_to_range, hca1, hca2, List.length_drop, hmin, hpos, if_true,
    List.drop_drop, Prod.mk.injEq, Option.some.injEq,
    Rg.mk.injEq, Itr.mk.injEq, eq_self_iff_true, true_and, and_true]
  omega

theorem step_inv_notfound {q c : List Char} {r : Nat} (hr : r ≤ c.length)
    (hwin : c.length - r ≠ 0)
    (hlen : c.length < USIZE) (h : findSub q (c.drop r) = none) :
    step (mkSt true q c r) =
      (some (Rg.mk (0 + r) (c.length - r + r)), mkSt true q c (r + (c.length - r))) := by
  have hca1 : checked_add 0 r = some (0 + r) := checked_add_of_lt (by omega)
  have hca2 : checked_add (c.length - r) r = some (c.length - r + r) :=
    checked_add_of_lt (by omega)
  have hmin : min (c.length - r) (c.length - r) = c.length - r := by omega
  have hpos : c.length - r > 0 := by omega
  simp only [step, mkSt, next_inverted, get_range_none h, Option.getD_none,
    shift_range, apply_to_range, hca1, hca2, List.length_drop, hmin, hpos, if_true,
    List.drop_drop, Prod.mk.injEq, Option.some.injEq,
    Rg.mk.injEq, Itr.mk.injEq, eq_self_iff_true, true_and, and_true]
  omega

theorem step_inv_empty {q c : List Char} {r : Nat} (hwin : c.drop r = []) :
    step (mkSt true q c r) = (none, mkSt true q c r) := by
  simp only [step, mkSt, next_inverted, hwin, if_true, List.length_nil,
    List.drop_nil, gt_iff_lt, Nat.lt_irrefl, if_false, Prod.mk.injEq,
    Itr.mk.injEq, eq_self_iff_true, true_and, and_true]
  omega

theorem collect_inv_terminal {q c : List Char} {r : Nat} (hnil : c.drop r = []) :
    ∀ fuel, collect fuel (mkSt true q c r) = [] := by
  intro fuel
  cases fuel with
  | zero => rfl
  | succ fuel => simp only [collect, step_inv_empty hnil]

theorem collect_std {q c : List Char} (hlen : c.length < USIZE) :
    ∀ (fuel r : Nat), r ≤ c.length →
      collect fuel (mkSt false q c r) = occsAux q fuel r (c.drop r) := by
  intro fuel
  induction fuel with
  | zero => intro r hr; rfl
  | succ fuel ih =>
      intro r hr
      cases hfind : findSub q (c.drop r) with
      | none => simp only [collect, step_std_none hfind, occsAux, hfind]
      | some s =>
          have hb := findSub_bound hfind
          rw [List.length_drop] at hb
          simp only [collect, step_std_found hr hlen hfind, occsAux, hfind]
          rw [ih (r + (s + q.length)) (by omega)]
          rw [List.drop_drop]
          have e0 : r + (s + q.length) = r + s + q.length := by omega
          have e1 : s + r = r + s := by omega
          have e2 : s + q.length + r = r + s + q.length := by omega
          rw [e0, e1, e2]

theorem collect_inv {q c : List Char} (hlen : c.length < USIZE) :
    ∀ (fuel r : Nat), r ≤ c.length →
      collect fuel (mkSt true q c r) = gapsAux q fuel r (c.drop r) := by
  intro fuel
  induction fuel with
  | zero => intro r hr; rfl
  | succ fuel ih =>
      intro r hr
      by_cases hw : c.length - r = 0
      · have hnil : c.drop r = [] := by
          rw [List.drop_eq_nil_iff]
          omega
        simp only [collect, step_inv_empty hnil, gapsAux, hnil, List.length_nil,
          eq_self_iff_true, if_true]
      · cases hfind : findSub q (c.drop r) with
        | none =>
            simp only [collect, step_inv_notfound hr hw hlen hfind, gapsAux,
              List.length_drop, if_neg hw, hfind]
            have hnil : c.drop (r + (c.length - r)) = [] := by
              rw [List.drop_eq_nil_iff]
              omega
            rw [collect_inv_terminal hnil]
            have e1 : 0 + r = r := by omega
            have e2 : c.length - r + r = r + (c.length - r) := by omega
            rw [e1, e2]
        | some s =>
            have hb := findSub_bound hfind
            rw [List.length_drop] at hb
            simp only [collect, step_inv_found hr hw hlen hfind, gapsAux,
              List.length_drop, if_neg hw, hfind]
            rw [ih (r + (s + q.length)) (by omega)]
            rw [List.drop_drop]
            have e0 : r + (s + q.length) = r + s + q.length := by omega
            have e1 : 0 + r = r := by omega
            have e2 : s + r = r + s := by omega
            rw [e0, e1, e2]

theorem stepN_succ (s : Itr) (n : Nat) : stepN s (n + 1) = stepN (step s).2 n :=
  rfl

theorem yieldAt_succ (s : Itr) (n : Nat) :
    yieldAt s (n + 1) = yieldAt (step s).2 n :=
  rfl

theorem occsAux_fuel {q : List Char} (hq : q ≠ []) :
    ∀ (fuel fuel' base : Nat) (w : List Char), w.length < fuel →
      w.length < fuel' → occsAux q fuel base w = occsAux q fuel' base w := by
  have hqpos : 0 < q.length := List.length_pos.mpr hq
  intro fuel
  induction fuel with
  | zero => intro fuel' base w hf; omega
  | succ fuel ih =>
      intro fuel' base w hf hf'
      cases fuel' with
      | zero => omega
      | succ fuel' =>
          cases hfind : findSub q w with
          | none => simp only [occsAux, hfind]
          | some s =>
              have hb := findSub_bound hfind
              simp only [occsAux, hfind]
              rw [ih fuel' (base + s + q.length) (w.drop (s + q.length))
                (by simp only [List.length_drop]; omega)
                (by simp only [List.length_drop]; omega)]

theorem gapsAux_fuel {q : List Char} (hq : q ≠ []) :
    ∀ (fuel fuel' base : Nat) (w : List Char), w.length < fuel →
      w.length < fuel' → gapsAux q fuel base w = gapsAux q fuel' base w := by
  have hqpos : 0 < q.length := List.length_pos.mpr hq
  intro fuel
  induction fuel with
  | zero => intro fuel' base w hf; omega
  | succ fuel ih =>
      intro fuel' base w hf hf'
      cases fuel' with
      | zero => omega
      | succ fuel' =>
          cases hfind : findSub q w with
          | none => simp only [gapsAux, hfind]
          | some s =>
              have hb := findSub_bound hfind
              simp only [gapsAux, hfind]
              rw [ih fuel' (base + s + q.length) (w.drop (s + q.length))
                (by simp only [List.length_drop]; omega)
                (by simp only [List.length_drop]; omega)]

theorem chainAux_fuel {q : List Char} (hq : q ≠ []) :
    ∀ (fuel fuel' base : Nat) (w : List Char), w.length < fuel →
      w.length < fuel' → chainAux q fuel base w = chainAux q fuel' base w := by
  have hqpos : 0 < q.length := List.length_pos.mpr hq
  intro fuel
  induction fuel with
  | zero => intro fuel' base w hf; omega
  | succ fuel ih =>
      intro fuel' base w hf hf'
      cases fuel' with
      | zero => omega
      | succ fuel' =>
          cases hfind : findSub q w with
          | none => simp only [chainAux, hfind]
          | some s =>
              have hb := findSub_bound hfind
              simp only [chainAux, hfind]
              rw [ih fuel' (base + s + q.length) (w.drop (s + q.length))
                (by simp only [List.length_drop]; omega)
                (by simp only [List.length_drop]; omega)]

theorem yieldAt_std {q c : List Char} (hq : q ≠ []) (hlen : c.length < USIZE) :
    ∀ (n r : Nat), r ≤ c.length →
      yieldAt (mkSt false q c r) n =
        (occsAux q (c.length + 1 - r) r (c.drop r))[n]? := by
  have hqpos : 0 < q.length := List.length_pos.mpr hq
  intro n
  induction n with
  | zero =>
      intro r hr
      obtain ⟨f, hf⟩ : ∃ f, c.length + 1 - r = f + 1 := ⟨c.length - r, by omega⟩
      rw [hf]
      cases hfind : findSub q (c.drop r) with
      | none =>
          show (step (mkSt false q c r)).1 = _
          rw [step_std_none hfind]
          simp only [occsAux, hfind, List.getElem?_nil]
      | some s =>
          show (step (mkSt false q c r)).1 = _
          rw [step_std_found hr hlen hfind]
          simp only [occsAux, hfind, List.getElem?_cons_zero, Option.some.injEq,
            Rg.mk.injEq]
          omega
  | succ n ih =>
      intro r hr
      rw [yieldAt_succ]
      obtain ⟨f, hf⟩ : ∃ f, c.length + 1 - r = f + 1 := ⟨c.length - r, by omega⟩
      rw [hf]
      cases hfind : findSub q (c.drop r) with
      | none =>
          rw [step_std_none hfind]
          rw [ih r hr, hf]
          simp only [occsAux, hfind, List.getElem?_nil]
      | some s =>
          have hb := findSub_bound hfind
          rw [List.length_drop] at hb
          rw [step_std_found hr hlen hfind]
          rw [ih (r + (s + q.length)) (by omega)]
          simp only [occsAux, hfind, List.getElem?_cons_succ]
          rw [List.drop_drop]
          have e0 : r + (s + q.length) = r + s + q.length := by omega
          rw [e0]
          rw [occsAux_fuel hq (c.length + 1 - (r + s + q.length)) f
            (r + s + q.length) (c.drop (r + s + q.length))
            (by simp only [List.length_drop]; omega)
            (by simp only [List.length_drop]; omega)]

theorem yieldAt_inv {q c : List Char} (hq : q ≠ []) (hlen : c.length < USIZE) :
    ∀ (n r : Nat), r ≤ c.length →
      yieldAt (mkSt true q c r) n =
        (gapsAux q (c.length + 1 - r) r (c.drop r))[n]? := by
  have hqpos : 0 < q.length := List.length_pos.mpr hq
  intro n
  induction n with
  | zero =>
      intro r hr
      obtain ⟨f, hf⟩ : ∃ f, c.length + 1 - r = f + 1 := ⟨c.length - r, by omega⟩
      rw [hf]
      by_cases hw : c.length - r = 0
      · have hnil : c.drop r = [] := by
          rw [List.drop_eq_nil_iff]
          omega
        show (step (mkSt true q c r)).1 = _
        rw [step_inv_empty hnil]
        simp only [gapsAux, hnil, List.length_nil, eq_self_iff_true, if_true,
          List.getElem?_nil]
      · cases hfind : findSub q (c.drop r) with
        | none =>
            show (step (mkSt true q c r)).1 = _
            rw [step_inv_notfound hr hw hlen hfind]
            simp only [gapsAux, hfind, List.length_drop,
              if_neg hw, List.getElem?_cons_zero, Option.some.injEq, Rg.mk.injEq]
            omega
        | some s =>
            show (step (mkSt true q c r)).1 = _
            rw [step_inv_found hr hw hlen hfind]
            simp only [gapsAux, hfind, List.length_drop,
              if_neg hw, List.getElem?_cons_zero, Option.some.injEq, Rg.mk.injEq]
            omega
  | succ n ih =>
      intro r hr
      rw [yieldAt_succ]
      obtain ⟨f, hf⟩ : ∃ f, c.length + 1 - r = f + 1 := ⟨c.length - r, by omega⟩
      rw [hf]
      by_cases hw : c.length - r = 0
      · have hnil : c.drop r = [] := by
          rw [List.drop_eq_nil_iff]
          omega
        rw [step_inv_empty hnil]
        rw [ih r hr, hf]
        simp only [gapsAux, hnil, List.length_nil, eq_self_iff_true, if_true,
          List.getElem?_nil]
      · cases hfind : findSub q (c.drop r) with
        | none =>
            rw [step_inv_notfound hr hw hlen hfind]
            rw [ih (r + (c.length - r)) (by omega)]
            simp only [gapsAux, hfind, List.length_drop, if_neg hw,
              List.getElem?_cons_succ]
            obtain ⟨f', hf'⟩ : ∃ f', c.length + 1 - (r + (c.length - r)) = f' + 1 :=
              ⟨0, by omega⟩
            rw [hf']
            have hnil : c.drop (r + (c.length - r)) = [] := by
              rw [List.drop_eq_nil_iff]
              omega
            simp only [gapsAux, hnil, List.length_nil, eq_self_iff_true, if_true,
              List.getElem?_nil]
        | some s =>
            have hb := findSub_bound hfind
            rw [List.length_drop] at hb
            rw [step_inv_found hr hw hlen hfind]
            rw [ih (r + (s + q.length)) (by omega)]
            simp only [gapsAux, hfind, List.length_drop, if_neg hw,
              List.getElem?_cons_succ]
            rw [List.drop_drop]
            have e0 : r + (s + q.length) = r + s + q.length := by omega
            rw [e0]
            rw [gapsAux_fuel hq (c.length + 1 - (r + s + q.length)) f
              (r + s + q.length) (c.drop (r + s + q.length))
              (by simp only [List.length_drop]; omega)
              (by simp only [List.length_drop]; omega)]

theorem occsAux_mem {q : List Char} :
    ∀ (fuel base : Nat) (w : List Char) (rg : Rg), rg ∈ occsAux q fuel base w →
      base ≤ rg.start ∧ rg.stop = rg.start + q.length ∧
        rg.stop ≤ base + w.length := by
  intro fuel
  induction fuel with
  | zero => intro base w rg h; simp [occsAux] at h
  | succ fuel ih =>
      intro base w rg h
      cases hfind : findSub q w with
      | none => simp [occsAux, hfind] at h
      | some s =>
          have hb := findSub_bound hfind
          simp only [occsAux, hfind, List.mem_cons] at h
          rcases h with rfl | h
          · dsimp only
            refine ⟨by omega, by omega, by omega⟩
          · have h3 := ih (base + s + q.length) (w.drop (s + q.length)) rg h
            rw [List.length_drop] at h3
            refine ⟨by omega, by omega, by omega⟩

theorem occsAux_pairwise {q : List Char} (hq : q ≠ []) :
    ∀ (fuel base : Nat) (w : List Char),
      (occsAux q fuel base w).Pairwise
        (fun a b => a.stop ≤ b.start ∧ a.start < b.start) := by
  have hqpos : 0 < q.length := List.length_pos.mpr hq
  intro fuel
  induction fuel with
  | zero => intro base w; simp [occsAux]
  | succ fuel ih =>
      intro base w
      cases hfind : findSub q w with
      | none => simp [occsAux, hfind]
      | some s =>
          simp only [occsAux, hfind]
          refine List.pairwise_cons.mpr ⟨?_, ih (base + s + q.length) (w.drop (s + q.length))⟩
          intro rg hrg
          have h3 := occsAux_mem fuel (base + s + q.length) (w.drop (s + q.length)) rg hrg
          dsimp only
          exact ⟨by omega, by omega⟩

theorem occsAux_slice {q c : List Char} :
    ∀ (fuel r : Nat), r ≤ c.length →
      ∀ rg ∈ occsAux q fuel r (c.drop r), sliceAt c rg = q := by
  intro fuel
  induction fuel with
  | zero => intro r hr rg h; simp [occsAux] at h
  | succ fuel ih =>
      intro r hr rg h
      cases hfind : findSub q (c.drop r) with
      | none => simp [occsAux, hfind] at h
      | some s =>
          have hb := findSub_bound hfind
          rw [List.length_drop] at hb
          simp only [occsAux, hfind, List.mem_cons] at h
          rcases h with rfl | h
          · exact sliceAt_occ hfind
          · rw [List.drop_drop] at h
            have e0 : r + (s + q.length) = r + s + q.length := by omega
            rw [e0] at h
            refine ih (r + (s + q.length)) (by omega) rg ?_
            rw [e0]
            exact h

theorem get_range_inversion {q c : List Char} {rg : Rg}
    (h : get_range q c = some rg) :
    findSub q c = some rg.start ∧ rg.stop = rg.start + q.length ∧
      rg.stop ≤ c.length := by
  cases hfind : findSub q c with
  | none => rw [get_range_none hfind] at h; simp at h
  | some st =>
      rw [get_range_of_findSub hfind] at h
      have hb := findSub_bound hfind
      simp only [Option.some.injEq] at h
      subst h
      dsimp only
      exact ⟨rfl, rfl, by omega⟩

theorem next_standard_none_fix {s : Itr} (h : (next_standard s).1 = none) :
    (next_standard s).2 = s := by
  cases hg : get_range s.query s.current_content with
  | none => simp only [next_standard, hg]
  | some range =>
      by_cases hiw : is_within s.current_content range = true
      · cases hs : shift_range_in_content range (Shift.up s.removed_count) s.full_content with
        | none => simp only [next_standard, hg, hiw, if_true, hs]
        | some shifted =>
            exfalso
            simp [next_standard, hg, hiw, hs] at h
      · simp only [Bool.not_eq_true] at hiw
        simp only [next_standard, hg, hiw, Bool.false_eq_true, if_false]

theorem stepN_fix {s : Itr} (h : (step s).2 = s) : ∀ n, stepN s n = s := by
  intro n
  induction n with
  | zero => rfl
  | succ n ih => rw [stepN_succ, h]; exact ih

theorem step_inv_empty_state {s : Itr} (hinv : s.inverted = true)
    (hnil : s.current_content = []) : step s = (none, s) := by
  rw [step, hinv, if_pos rfl, next_inverted, hnil]
  simp only [List.length_nil, List.drop_nil, gt_iff_lt, Nat.lt_irrefl, if_false,
    Nat.sub_zero, Nat.add_zero]
  rw [Prod.mk.injEq]
  refine ⟨rfl, ?_⟩
  rw [← hnil]

theorem std_step_shrink {s : Itr} (hinv : s.inverted = false) {rg : Rg}
    (h : (step s).1 = some rg) :
    (step s).2.inverted = false ∧ (step s).2.query = s.query ∧
      (step s).2.current_content.length + s.query.length ≤
        s.current_content.length := by
  rw [step, hinv] at h ⊢
  simp only [Bool.false_eq_true, if_false] at h ⊢
  cases hg : get_range s.query s.current_content with
  | none => simp [next_standard, hg] at h
  | some range =>
      obtain ⟨hfind, hstop, hle⟩ := get_range_inversion hg
      by_cases hiw : is_within s.current_content range = true
      · cases hs : shift_range_in_content range (Shift.up s.removed_count) s.full_content with
        | none => simp [next_standard, hg, hiw, hs] at h
        | some shifted =>
            simp only [next_standard, hg, hiw, if_true, hs]
            refine ⟨hinv, by trivial, ?_⟩
            try dsimp only
            simp only [List.length_drop]
            omega
      · simp only [Bool.not_eq_true] at hiw
        simp [next_standard, hg, hiw] at h

theorem inv_step_shrink {s : Itr} (hinv : s.inverted = true)
    (hq : s.query ≠ []) (hne : s.current_content ≠ []) :
    (step s).2.inverted = true ∧ (step s).2.query = s.query ∧
      (step s).2.current_content.length < s.current_content.length := by
  have hqpos : 0 < s.query.length := List.length_pos.mpr hq
  have hcpos : 0 < s.current_content.length := List.length_pos.mpr hne
  rw [step, hinv, if_pos rfl, next_inverted]
  refine ⟨hinv, by trivial, ?_⟩
  try dsimp only
  simp only [List.length_drop]
  cases hg : get_range s.query s.current_content with
  | none =>
      simp only [Option.getD_none]
      try dsimp only
      omega
  | some range =>
      obtain ⟨hfind, hstop, hle⟩ := get_range_inversion hg
      simp only [Option.getD_some]
      rw [hstop]
      omega

theorem std_terminates {q : List Char} :
    ∀ (k : Nat) (s : Itr), s.inverted = false → s.query = q → q ≠ [] →
      s.current_content.length ≤ k →
      ∃ N, ∀ n, N ≤ n → yieldAt s n = none := by
  intro k
  induction k with
  | zero =>
      intro s hinv hsq hq hlen
      cases h1 : (step s).1 with
      | none =>
          have hfix0 : (step s).2 = s := by
            rw [step, hinv] at h1 ⊢
            simp only [Bool.false_eq_true, if_false] at h1 ⊢
            exact next_standard_none_fix h1
          refine ⟨0, fun n hn => ?_⟩
          rw [yieldAt, stepN_fix hfix0 n]
          exact h1
      | some rg =>
          exfalso
          have h2 := std_step_shrink hinv h1
          have hqpos : 0 < q.length := List.length_pos.mpr hq
          rw [hsq] at h2
          omega
  | succ k ih =>
      intro s hinv hsq hq hlen
      cases h1 : (step s).1 with
      | none =>
          have hfix0 : (step s).2 = s := by
            rw [step, hinv] at h1 ⊢
            simp only [Bool.false_eq_true, if_false] at h1 ⊢
            exact next_standard_none_fix h1
          refine ⟨0, fun n hn => ?_⟩
          rw [yieldAt, stepN_fix hfix0 n]
          exact h1
      | some rg =>
          obtain ⟨hinv2, hq2, hlen2⟩ := std_step_shrink hinv h1
          have hqpos : 0 < q.length := List.length_pos.mpr hq
          rw [hsq] at hlen2
          obtain ⟨N, hN⟩ := ih (step s).2 hinv2 (by rw [hq2, hsq]) hq (by omega)
          refine ⟨N + 1, fun n hn => ?_⟩
          obtain ⟨m, rfl⟩ : ∃ m, n = m + 1 := ⟨n - 1, by omega⟩
          rw [yieldAt_succ]
          exact hN m (by omega)

theorem inv_terminates {q : List Char} :
    ∀ (k : Nat) (s : Itr), s.inverted = true → s.query = q → q ≠ [] →
      s.current_content.length ≤ k →
      ∃ N, ∀ n, N ≤ n → yieldAt s n = none := by
  intro k
  induction k with
  | zero =>
      intro s hinv hsq hq hlen
      have hnil : s.current_content = [] := by
        cases hc : s.current_content with
        | nil => rfl
        | cons a t => rw [hc] at hlen; simp at hlen
      have hsts := step_inv_empty_state hinv hnil
      refine ⟨0, fun n hn => ?_⟩
      rw [yieldAt, stepN_fix (by rw [hsts]) n, hsts]
  | succ k ih =>
      intro s hinv hsq hq hlen
      cases hnil : s.current_content with
      | nil =>
          have hsts := step_inv_empty_state hinv hnil
          refine ⟨0, fun n hn => ?_⟩
          rw [yieldAt, stepN_fix (by rw [hsts]) n, hsts]
      | cons a t =>
          obtain ⟨hinv2, hq2, hlen2⟩ :=
            inv_step_shrink hinv (by rw [hsq]; exact hq) (by rw [hnil]; simp)
          rw [hnil] at hlen2 hlen
          simp only [List.length_cons] at hlen2 hlen
          obtain ⟨N, hN⟩ := ih (step s).2 hinv2 (by rw [hq2, hsq]) hq (by omega)
          refine ⟨N + 1, fun n hn => ?_⟩
          obtain ⟨m, rfl⟩ : ∃ m, n = m + 1 := ⟨n - 1, by omega⟩
          rw [yieldAt_succ]
          exact hN m (by omega)

theorem gapsAux_length {q : List Char} (hq : q ≠ []) :
    ∀ (fuel base : Nat) (w : List Char), w.length < fuel →
      (gapsAux q fuel base w).length =
        (occsAux q fuel base w).length +
          (if lastEnd (occsAux q fuel base w) base = base + w.length then 0
            else 1) := by
  have hqpos : 0 < q.length := List.length_pos.mpr hq
  intro fuel
  induction fuel with
  | zero => intro base w hf; omega
  | succ fuel ih =>
      intro base w hf
      by_cases hw : w.length = 0
      · have hnil : w = [] := List.length_eq_zero.mp hw
        subst hnil
        rw [gapsAux, occsAux, findSub_nil hq]
        simp only [List.length_nil, eq_self_iff_true, if_true, List.length_nil]
        rw [if_pos (by dsimp only [lastEnd]; omega)]
      · cases hfind : findSub q w with
        | none =>
            rw [gapsAux, occsAux, hfind, if_neg hw]
            dsimp only [lastEnd]
            rw [if_neg (by omega)]
            simp
        | some s =>
            have hb := findSub_bound hfind
            rw [gapsAux, occsAux, hfind, if_neg hw]
            simp only [List.length_cons]
            dsimp only [lastEnd]
            rw [ih (base + s + q.length) (w.drop (s + q.length))
              (by simp only [List.length_drop]; omega)]
            have e : base + s + q.length + (w.drop (s + q.length)).length =
                base + w.length := by
              simp only [List.length_drop]
              omega
            rw [e]
            omega

theorem gapsAux_mem {q : List Char} :
    ∀ (fuel base : Nat) (w : List Char), ∀ g ∈ gapsAux q fuel base w,
      base ≤ g.start ∧ g.start ≤ g.stop ∧ g.stop ≤ base + w.length := by
  intro fuel
  induction fuel with
  | zero => intro base w g h; simp [gapsAux] at h
  | succ fuel ih =>
      intro base w g h
      by_cases hw : w.length = 0
      · rw [gapsAux, if_pos hw] at h
        simp at h
      · rw [gapsAux, if_neg hw] at h
        cases hfind : findSub q w with
        | none =>
            rw [hfind] at h
            simp only [List.mem_singleton] at h
            subst h
            dsimp only
            omega
        | some s =>
            have hb := findSub_bound hfind
            rw [hfind] at h
            simp only [List.mem_cons] at h
            rcases h with rfl | h
            · dsimp only
              omega
            · have h3 := ih (base + s + q.length) (w.drop (s + q.length)) g h
              rw [List.length_drop] at h3
              refine ⟨by omega, by omega, by omega⟩

theorem occs_gaps_start {q : List Char} (hq : q ≠ []) :
    ∀ (fuel base : Nat) (w : List Char),
      ∀ rg ∈ occsAux q fuel base w, ∀ g ∈ gapsAux q fuel base w,
        rg.start = g.start → g.stop = g.start := by
  have hqpos : 0 < q.length := List.length_pos.mpr hq
  intro fuel
  induction fuel with
  | zero => intro base w rg h; simp [occsAux] at h
  | succ fuel ih =>
      intro base w rg hrg g hg heq
      by_cases hw : w.length = 0
      · have hnil : w = [] := List.length_eq_zero.mp hw
        subst hnil
        rw [occsAux, findSub_nil hq] at hrg
        simp at hrg
      · cases hfind : findSub q w with
        | none =>
            rw [occsAux, hfind] at hrg
            simp at hrg
        | some s =>
            have hb := findSub_bound hfind
            rw [occsAux, hfind] at hrg
            rw [gapsAux, if_neg hw, hfind] at hg
            simp only [List.mem_cons] at hrg hg
            rcases hrg with rfl | hrg <;> rcases hg with rfl | hg
            · dsimp only at heq ⊢
              omega
            · have h3 := gapsAux_mem fuel (base + s + q.length)
                (w.drop (s + q.length)) g hg
              dsimp only at heq
              omega
            · have h3 := occsAux_mem fuel (base + s + q.length)
                (w.drop (s + q.length)) rg hrg
              dsimp only at heq
              omega
            · exact ih (base + s + q.length) (w.drop (s + q.length)) rg hrg g hg heq

theorem sliceAt_length {c : List Char} {rg : Rg} (h : rg.stop ≤ c.length) :
    (sliceAt c rg).length = rg.stop - rg.start := by
  rw [sliceAt, List.length_take, List.length_drop]
  omega

theorem sliceAt_append {c : List Char} {a b n : Nat} (h1 : a ≤ b) (h2 : b ≤ n) :
    sliceAt c (Rg.mk a b) ++ sliceAt c (Rg.mk b n) = sliceAt c (Rg.mk a n) := by
  rw [sliceAt, sliceAt, sliceAt]
  dsimp only
  have e : n - a = (b - a) + (n - b) := by omega
  rw [e, List.take_add, List.drop_drop]
  have e2 : a + (b - a) = b := by omega
  rw [e2]

theorem sliceAt_full {c : List Char} : sliceAt c (Rg.mk 0 c.length) = c := by
  rw [sliceAt]
  dsimp only
  rw [Nat.sub_zero, List.drop_zero, List.take_length]

theorem RunsTile_le {c : List Char} :
    ∀ (M : List (List Char × Nat)) (pos n : Nat), RunsTile c pos M n →
      pos ≤ n := by
  intro M
  induction M with
  | nil =>
      intro pos n h
      simp only [RunsTile] at h
      omega
  | cons p M ih =>
      intro pos n h
      simp only [RunsTile] at h
      have := ih (pos + p.1.length) n h.2.2
      omega

theorem RunsTile_flatten {c : List Char} :
    ∀ (M : List (List Char × Nat)) (pos n : Nat), n ≤ c.length →
      RunsTile c pos M n →
      (M.map (fun p => p.1)).flatten = sliceAt c (Rg.mk pos n) := by
  intro M
  induction M with
  | nil =>
      intro pos n hn h
      simp only [RunsTile] at h
      subst h
      simp [sliceAt]
  | cons p M ih =>
      intro pos n hn h
      simp only [RunsTile] at h
      obtain ⟨hst, hseg, htile⟩ := h
      have hle2 := RunsTile_le M (pos + p.1.length) n htile
      simp only [List.map_cons, List.flatten_cons]
      rw [ih (pos + p.1.length) n hn htile]
      rw [← @sliceAt_append c pos (pos + p.1.length) n (by omega) hle2]
      congr 1

theorem flatten_filter_isEmpty :
    ∀ (M : List (List Char × Nat)),
      (((M.filter (fun p => !p.1.isEmpty)).map (fun p => p.1)).flatten :
          List Char) =
        ((M.map (fun p => p.1)).flatten : List Char) := by
  intro M
  induction M with
  | nil => rfl
  | cons p M ih =>
      rw [List.filter_cons]
      by_cases hp : p.1.isEmpty = true
      · rw [if_neg (by simp [hp])]
        simp only [List.map_cons, List.flatten_cons]
        rw [List.isEmpty_iff.mp hp, ih]
        rfl
      · rw [if_pos (by simp [hp])]
        simp only [List.map_cons, List.flatten_cons, ih]

theorem RunsTile_filter {c : List Char} :
    ∀ (M : List (List Char × Nat)) (pos n : Nat), RunsTile c pos M n →
      RunsTile c pos (M.filter (fun p => !p.1.isEmpty)) n := by
  intro M
  induction M with
  | nil => intro pos n h; exact h
  | cons p M ih =>
      intro pos n h
      simp only [RunsTile] at h
      obtain ⟨hst, hseg, htile⟩ := h
      rw [List.filter_cons]
      by_cases hp : p.1.isEmpty = true
      · rw [if_neg (by simp [hp])]
        have hlen0 : p.1.length = 0 := by
          rw [List.isEmpty_iff.mp hp]
          rfl
        rw [hlen0, Nat.add_zero] at htile
        exact ih pos n htile
      · rw [if_pos (by simp [hp])]
        exact ⟨hst, hseg, ih (pos + p.1.length) n htile⟩

theorem RunsTile_mem_ge {c : List Char} :
    ∀ (M : List (List Char × Nat)) (pos n : Nat), RunsTile c pos M n →
      ∀ p ∈ M, pos ≤ p.2 := by
  intro M
  induction M with
  | nil => intro pos n h p hp; simp at hp
  | cons p0 M ih =>
      intro pos n h p hp
      simp only [RunsTile] at h
      obtain ⟨hst, hseg, htile⟩ := h
      rcases List.mem_cons.mp hp with rfl | hp
      · omega
      · have := ih (pos + p0.1.length) n htile p hp
        omega

theorem RunsTile_pairwise {c : List Char} :
    ∀ (M : List (List Char × Nat)) (pos n : Nat), RunsTile c pos M n →
      (∀ p ∈ M, p.1 ≠ []) → M.Pairwise (fun a b => a.2 < b.2) := by
  intro M
  induction M with
  | nil => intro pos n h hne; simp
  | cons p M ih =>
      intro pos n h hne
      simp only [RunsTile] at h
      obtain ⟨hst, hseg, htile⟩ := h
      refine List.pairwise_cons.mpr ⟨?_, ih (pos + p.1.length) n htile
        (fun b hb => hne b (List.mem_cons_of_mem p hb))⟩
      intro b hb
      have h1 := RunsTile_mem_ge M (pos + p.1.length) n htile b hb
      have h2 : p.1.length ≠ 0 := by
        intro h0
        exact hne p (List.mem_cons_self p M) (List.length_eq_zero.mp h0)
      omega

theorem pairwise_lt_of_le_nodup :
    ∀ (M : List (List Char × Nat)), M.Pairwise (fun a b => a.2 ≤ b.2) →
      (M.map (fun p => p.2)).Nodup → M.Pairwise (fun a b => a.2 < b.2) := by
  intro M
  induction M with
  | nil => intro h1 h2; simp
  | cons p M ih =>
      intro h1 h2
      rw [List.pairwise_cons] at h1
      rw [List.map_cons, List.nodup_cons] at h2
      refine List.pairwise_cons.mpr ⟨?_, ih h1.2 h2.2⟩
      intro b hb
      have hle := h1.1 b hb
      have hne : p.2 ≠ b.2 := by
        intro he
        exact h2.1 (by rw [he]; exact List.mem_map_of_mem (fun p => p.2) hb)
      omega

theorem sorted_runs_eq {M N : List (List Char × Nat)} (hp : M.Perm N)
    (hM : M.Pairwise (fun a b => a.2 ≤ b.2))
    (hN : N.Pairwise (fun a b => a.2 < b.2)) : M = N := by
  have hNmap : (N.map (fun p => p.2)).Pairwise (fun a b => a < b) :=
    List.pairwise_map.mpr hN
  have hNnd : (N.map (fun p => p.2)).Nodup := hNmap.imp (fun h => Nat.ne_of_lt h)
  have hMnd : (M.map (fun p => p.2)).Nodup :=
    ((hp.map (fun p => p.2)).nodup_iff).mpr hNnd
  have hM' := pairwise_lt_of_le_nodup M hM hMnd
  haveI : IsAntisymm (List Char × Nat) (fun a b => a.2 < b.2) :=
    ⟨fun a b h1 h2 => absurd h2 (Nat.lt_asymm h1)⟩
  exact List.eq_of_perm_of_sorted hp hM' hN

theorem chain_perm {q : List Char} (hq : q ≠ []) :
    ∀ (fuel base : Nat) (w : List Char),
      List.Perm (chainAux q fuel base w)
        (occsAux q fuel base w ++ gapsAux q fuel base w) := by
  intro fuel
  induction fuel with
  | zero =>
      intro base w
      simp [chainAux, occsAux, gapsAux]
  | succ fuel ih =>
      intro base w
      by_cases hw : w.length = 0
      · have hnil := List.length_eq_zero.mp hw
        subst hnil
        rw [chainAux, occsAux, gapsAux, findSub_nil hq]
        simp
      · cases hfind : findSub q w with
        | none =>
            simp only [chainAux, occsAux, gapsAux, hfind, if_neg hw]
            simp
        | some s =>
            simp only [chainAux, occsAux, gapsAux, hfind, if_neg hw]
            have h1 := ih (base + s + q.length) (w.drop (s + q.length))
            refine (List.Perm.swap _ _ _).trans (List.Perm.cons _ ?_)
            exact (List.Perm.cons _ h1).trans List.perm_middle.symm

theorem sliceAt_length_mk {c : List Char} {a b : Nat} (h : b ≤ c.length) :
    (sliceAt c (Rg.mk a b)).length = b - a := by
  rw [sliceAt]
  dsimp only
  rw [List.length_take, List.length_drop]
  omega

theorem chain_tiles {q c : List Char} (hq : q ≠ []) :
    ∀ (fuel r : Nat), r ≤ c.length → c.length - r < fuel →
      RunsTile c r
        ((chainAux q fuel r (c.drop r)).map (fun rg => (sliceAt c rg, rg.start)))
        c.length := by
  have hqpos : 0 < q.length := List.length_pos.mpr hq
  intro fuel
  induction fuel with
  | zero => intro r hr hf; omega
  | succ fuel ih =>
      intro r hr hf
      by_cases hw : c.length - r = 0
      · simp only [chainAux, List.length_drop, hw, eq_self_iff_true, if_true,
          List.map_nil, RunsTile]
        omega
      · cases hfind : findSub q (c.drop r) with
        | none =>
            simp only [chainAux, hfind, List.length_drop, if_neg hw,
              List.map_cons, List.map_nil]
            have hl1 : (sliceAt c (Rg.mk r (r + (c.length - r)))).length =
                r + (c.length - r) - r := sliceAt_length_mk (by omega)
            simp only [RunsTile]
            try dsimp only
            rw [hl1]
            have e1 : r + (r + (c.length - r) - r) = r + (c.length - r) := by
              omega
            rw [e1]
            refine ⟨by trivial, by trivial, by omega⟩
        | some s =>
            have hb := findSub_bound hfind
            rw [List.length_drop] at hb
            simp only [chainAux, hfind, List.length_drop, if_neg hw,
              List.map_cons]
            have hl1 : (sliceAt c (Rg.mk r (r + s))).length = r + s - r :=
              sliceAt_length_mk (by omega)
            have hl2 : (sliceAt c (Rg.mk (r + s) (r + s + q.length))).length =
                r + s + q.length - (r + s) := sliceAt_length_mk (by omega)
            simp only [RunsTile]
            try dsimp only
            rw [hl1, hl2]
            have e1 : r + (r + s - r) = r + s := by omega
            have e2 : r + s + (r + s + q.length - (r + s)) = r + s + q.length := by
              omega
            rw [e1, e2]
            refine ⟨by trivial, by trivial, by trivial, by trivial, ?_⟩
            rw [List.drop_drop]
            have e0 : r + (s + q.length) = r + s + q.length := by omega
            rw [e0]
            exact ih (r + s + q.length) (by omega) (by omega)

theorem runs_perm_chain {q c : List Char} (hq : q ≠ []) (hlen : c.length < USIZE)
    (inv : Bool) :
    List.Perm (runOf q c inv ++ runOf q c (!inv))
      (chainAux q (c.length + 1) 0 c) := by
  have hstd : runOf q c false = occList q c := by
    have h0 := @collect_std q c hlen (c.length + 1) 0 (by omega)
    rw [List.drop_zero] at h0
    exact h0
  have hgap : runOf q c true = gapList q c := by
    have h0 := @collect_inv q c hlen (c.length + 1) 0 (by omega)
    rw [List.drop_zero] at h0
    exact h0
  have hchain : List.Perm (chainAux q (c.length + 1) 0 c)
      (occList q c ++ gapList q c) := by
    have h0 := chain_perm hq (c.length + 1) 0 c
    exact h0
  cases inv with
  | false =>
      rw [Bool.not_false, hstd, hgap]
      exact hchain.symm
  | true =>
      rw [Bool.not_true, hstd, hgap]
      exact (List.perm_append_comm).trans hchain.symm

theorem sorted_flatten_eq {q c : List Char} (hq : q ≠ [])
    (X : List (List Char × Nat))
    (hperm : X.Perm ((chainAux q (c.length + 1) 0 c).map
      (fun rg => (sliceAt c rg, rg.start)))) :
    ((sortRuns X).map (fun p => p.1)).flatten = c := by
  have htile : RunsTile c 0
      ((chainAux q (c.length + 1) 0 c).map (fun rg => (sliceAt c rg, rg.start)))
      c.length := by
    have h0 := @chain_tiles q c hq (c.length + 1) 0 (by omega) (by omega)
    rw [List.drop_zero] at h0
    exact h0
  have hsortperm : (sortRuns X).Perm
      ((chainAux q (c.length + 1) 0 c).map (fun rg => (sliceAt c rg, rg.start))) :=
    (List.mergeSort_perm X (fun a b => decide (a.2 ≤ b.2))).trans hperm
  have hsorted0 := @List.sorted_mergeSort (List Char × Nat)
    (fun a b => decide (a.2 ≤ b.2))
    (fun a b c' hab hbc => by
      simp only [decide_eq_true_eq] at hab hbc ⊢
      omega)
    (fun a b => by
      simp only [Bool.or_eq_true, decide_eq_true_eq]
      omega) X
  have hsorted : (sortRuns X).Pairwise (fun a b => a.2 ≤ b.2) :=
    hsorted0.imp (fun h => of_decide_eq_true h)
  have hfil_sorted : ((sortRuns X).filter (fun p => !p.1.isEmpty)).Pairwise
      (fun a b => a.2 ≤ b.2) :=
    List.Pairwise.sublist (List.filter_sublist (sortRuns X)) hsorted
  have hchainF : (((chainAux q (c.length + 1) 0 c).map
      (fun rg => (sliceAt c rg, rg.start))).filter
        (fun p => !p.1.isEmpty)).Pairwise (fun a b => a.2 < b.2) := by
    refine RunsTile_pairwise _ 0 c.length (RunsTile_filter _ 0 c.length htile) ?_
    intro p hp
    rw [List.mem_filter] at hp
    intro h0
    rw [h0] at hp
    simp at hp
  have heq : (sortRuns X).filter (fun p => !p.1.isEmpty) =
      ((chainAux q (c.length + 1) 0 c).map
        (fun rg => (sliceAt c rg, rg.start))).filter (fun p => !p.1.isEmpty) :=
    sorted_runs_eq (hsortperm.filter (fun p => !p.1.isEmpty)) hfil_sorted hchainF
  calc ((sortRuns X).map (fun p => p.1)).flatten
      = (((sortRuns X).filter (fun p => !p.1.isEmpty)).map
          (fun p => p.1)).flatten := (flatten_filter_isEmpty (sortRuns X)).symm
    _ = ((((chainAux q (c.length + 1) 0 c).map
          (fun rg => (sliceAt c rg, rg.start))).filter
            (fun p => !p.1.isEmpty)).map (fun p => p.1)).flatten := by rw [heq]
    _ = (((chainAux q (c.length + 1) 0 c).map
          (fun rg => (sliceAt c rg, rg.start))).map (fun p => p.1)).flatten :=
        flatten_filter_isEmpty _
    _ = sliceAt c (Rg.mk 0 c.length) :=
        RunsTile_flatten _ 0 c.length (Nat.le_refl _) htile
    _ = c := sliceAt_full

theorem transform_id {q c : List Char} (hq : q ≠ []) (hlen : c.length < USIZE)
    (invert : Bool) : transform q c (fun s => s) invert = c := by
  rw [transform]
  rw [← List.map_append]
  exact sorted_flatten_eq hq _ ((runs_perm_chain hq hlen invert).map _)

theorem runStd_eq_occList {q c : List Char} (hlen : c.length < USIZE) :
    runOf q c false = occList q c := by
  have h0 := @collect_std q c hlen (c.length + 1) 0 (by omega)
  rw [List.drop_zero] at h0
  exact h0

theorem runInv_eq_gapList {q c : List Char} (hlen : c.length < USIZE) :
    runOf q c true = gapList q c := by
  have h0 := @collect_inv q c hlen (c.length + 1) 0 (by omega)
  rw [List.drop_zero] at h0
  exact h0

theorem step_shape (s : Itr) :
    (step s).2 = s ∨
    ∃ k, (step s).2 = Itr.mk s.inverted s.query (s.current_content.drop k)
      s.full_content
      (s.removed_count + (s.current_content.length -
        (s.current_content.drop k).length)) := by
  rw [step]
  by_cases hinv : s.inverted = true
  · rw [if_pos hinv]
    right
    exact ⟨_, rfl⟩
  · rw [if_neg hinv]
    cases hg : get_range s.query s.current_content with
    | none =>
        left
        simp only [next_standard, hg]
    | some range =>
        by_cases hiw : is_within s.current_content range = true
        · cases hs : shift_range_in_content range (Shift.up s.removed_count)
            s.full_content with
          | none =>
              left
              simp only [next_standard, hg, hiw, if_true, hs]
          | some shifted =>
              right
              refine ⟨range.stop, ?_⟩
              simp only [next_standard, hg, hiw, if_true, hs]
        · simp only [Bool.not_eq_true] at hiw
          left
          simp only [next_standard, hg, hiw, Bool.false_eq_true, if_false]

theorem step_preserves_full (s : Itr) :
    (step s).2.full_content = s.full_content := by
  rcases step_shape s with he | ⟨k, he⟩
  · rw [he]
  · rw [he]

theorem step_invariant_preserved (s : Itr)
    (h : s.removed_count + s.current_content.length = s.full_content.length) :
    (step s).2.removed_count + (step s).2.current_content.length =
      (step s).2.full_content.length := by
  rcases step_shape s with he | ⟨k, he⟩
  · rw [he]
    exact h
  · rw [he]
    dsimp only
    rw [List.length_drop]
    omega

theorem step_monotone (s : Itr) :
    s.removed_count ≤ (step s).2.removed_count ∧
      List.IsSuffix (step s).2.current_content s.current_content := by
  rcases step_shape s with he | ⟨k, he⟩
  · rw [he]
    exact ⟨Nat.le_refl _, List.suffix_refl _⟩
  · rw [he]
    dsimp only
    exact ⟨by omega, List.drop_suffix k _⟩

theorem checked_add_none {a b : Nat} (h : ¬ a + b < USIZE) :
    checked_add a b = none := by
  rw [checked_add, if_neg h]

theorem checked_sub_some {a b : Nat} (h : b ≤ a) :
    checked_sub a b = some (a - b) := by
  rw [checked_sub, if_pos h]

theorem checked_sub_none {a b : Nat} (h : ¬ b ≤ a) :
    checked_sub a b = none := by
  rw [checked_sub, if_neg h]

theorem shift_up_eq (rg : Rg) (k : Nat) :
    shift_range rg (Shift.up k) =
      if rg.start + k < USIZE ∧ rg.stop + k < USIZE
      then some (Rg.mk (rg.start + k) (rg.stop + k)) else none := by
  by_cases h1 : rg.start + k < USIZE
  · by_cases h2 : rg.stop + k < USIZE
    · rw [if_pos ⟨h1, h2⟩]
      simp only [shift_range, apply_to_range, checked_add_of_lt h1,
        checked_add_of_lt h2]
    · rw [if_neg (by tauto)]
      simp only [shift_range, apply_to_range, checked_add_of_lt h1,
        checked_add_none h2]
  · rw [if_neg (by tauto)]
    by_cases h2 : rg.stop + k < USIZE
    · simp only [shift_range, apply_to_range, checked_add_none h1,
        checked_add_of_lt h2]
    · simp only [shift_range, apply_to_range, checked_add_none h1,
        checked_add_none h2]

theorem shift_down_eq (rg : Rg) (k : Nat) :
    shift_range rg (Shift.down k) =
      if k ≤ rg.start ∧ k ≤ rg.stop
      then some (Rg.mk (rg.start - k) (rg.stop - k)) else none := by
  by_cases h1 : k ≤ rg.start
  · by_cases h2 : k ≤ rg.stop
    · rw [if_pos ⟨h1, h2⟩]
      simp only [shift_range, apply_to_range, checked_sub_some h1,
        checked_sub_some h2]
    · rw [if_neg (by tauto)]
      simp only [shift_range, apply_to_range, checked_sub_some h1,
        checked_sub_none h2]
  · rw [if_neg (by tauto)]
    by_cases h2 : k ≤ rg.stop
    · simp only [shift_range, apply_to_range, checked_sub_none h1,
        checked_sub_some h2]
    · simp only [shift_range, apply_to_range, checked_sub_none h1,
        checked_sub_none h2]

theorem is_within_false_of {c : List Char} {a b : Nat} (h : c.length < b) :
    is_within c (Rg.mk a b) = false := by
  rw [is_within]
  rw [if_pos]
  dsimp only
  exact h

theorem shift_in_content_up_eq (rg : Rg) (k : Nat) (content : List Char) :
    shift_range_in_content rg (Shift.up k) content =
      if rg.start + k < USIZE ∧ rg.stop + k < USIZE ∧
          rg.stop + k ≤ content.length
      then some (Rg.mk (rg.start + k) (rg.stop + k)) else none := by
  rw [shift_range_in_content, shift_up_eq]
  by_cases h1 : rg.start + k < USIZE ∧ rg.stop + k < USIZE
  · rw [if_pos h1]
    by_cases h3 : rg.stop + k ≤ content.length
    · rw [if_pos ⟨h1.1, h1.2, h3⟩]
      simp [is_within_true_of h3]
    · rw [if_neg (by tauto)]
      simp [is_within_false_of (by omega : content.length < rg.stop + k)]
  · rw [if_neg h1, if_neg (by tauto)]

theorem shift_in_content_down_eq (rg : Rg) (k : Nat) (content : List Char) :
    shift_range_in_content rg (Shift.down k) content =
      if k ≤ rg.start ∧ k ≤ rg.stop ∧ rg.stop - k ≤ content.length
      then some (Rg.mk (rg.start - k) (rg.stop - k)) else none := by
  rw [shift_range_in_content, shift_down_eq]
  by_cases h1 : k ≤ rg.start ∧ k ≤ rg.stop
  · rw [if_pos h1]
    by_cases h3 : rg.stop - k ≤ content.length
    · rw [if_pos ⟨h1.1, h1.2, h3⟩]
      simp [is_within_true_of h3]
    · rw [if_neg (by tauto)]
      simp [is_within_false_of (by omega : content.length < rg.stop - k)]
  · rw [if_neg h1, if_neg (by tauto)]

theorem stepN_succ_back (s : Itr) : ∀ n, stepN s (n + 1) = (step (stepN s n)).2 := by
  intro n
  induction n generalizing s with
  | zero => rfl
  | succ n ih =>
      rw [stepN_succ, ih (step s).2]
      rfl

theorem stepN_invariant (q c : List Char) (inv : Bool) :
    ∀ n, (stepN (new_base q c inv) n).removed_count +
        (stepN (new_base q c inv) n).current_content.length =
      (stepN (new_base q c inv) n).full_content.length := by
  intro n
  induction n with
  | zero => simp [stepN, new_base]
  | succ n ih =>
      rw [stepN_succ_back]
      exact step_invariant_preserved _ ih

/-- C1: for every non-empty query (and any content that fits in a Rust
string, i.e. length below `USIZE`), the matches-mode iterator driven by
`next` yields exactly the leftmost-first non-overlapping occurrence list:
the `n`-th call yields the `n`-th occurrence and nothing after them, the
substring of the content at each yielded range equals the query, and the
yielded ranges are strictly increasing and pairwise non-overlapping. -/
theorem matches_iterator_spec (q c : List Char) (hq : q ≠ [])
    (hlen : c.length < USIZE) :
    (∀ n : Nat, yieldAt (new_base q c false) n = (occList q c)[n]?) ∧
    runOf q c false = occList q c ∧
    (∀ rg ∈ occList q c, sliceAt c rg = q) ∧
    List.Pairwise (fun a b => a.stop ≤ b.start ∧ a.start < b.start)
      (occList q c) := by
  refine ⟨?_, runStd_eq_occList hlen, ?_, ?_⟩
  · intro n
    have h0 := yieldAt_std hq hlen n 0 (Nat.zero_le _)
    rw [Nat.sub_zero, List.drop_zero] at h0
    exact h0
  · intro rg hrg
    have h0 := @occsAux_slice q c (c.length + 1) 0 (Nat.zero_le _)
    rw [List.drop_zero] at h0
    exact h0 rg hrg
  · exact occsAux_pairwise hq (c.length + 1) 0 c

/-- Witness for C1 at query `"a"`, content `"aba"`. -/
theorem matches_iterator_spec_witness :
    ((['a'] : List Char) ≠ [] ∧ (['a', 'b', 'a'] : List Char).length < USIZE) ∧
    ((∀ n : Nat, yieldAt (new_base ['a'] ['a', 'b', 'a'] false) n =
        (occList ['a'] ['a', 'b', 'a'])[n]?) ∧
      runOf ['a'] ['a', 'b', 'a'] false = occList ['a'] ['a', 'b', 'a'] ∧
      (∀ rg ∈ occList ['a'] ['a', 'b', 'a'],
        sliceAt ['a', 'b', 'a'] rg = ['a']) ∧
      List.Pairwise (fun a b => a.stop ≤ b.start ∧ a.start < b.start)
        (occList ['a'] ['a', 'b', 'a'])) :=
  ⟨⟨by decide, by decide⟩,
    matches_iterator_spec ['a'] ['a', 'b', 'a'] (by decide) (by decide)⟩

/-- C2 (as stated) is false: for content `"ab"` and query `"ab"` (one
occurrence, k = 1) the gaps-mode iterator yields only the zero-length
leading gap, not `k + 1 = 2` ranges — the trailing zero-length gap after
the last match is never emitted. -/
theorem gaps_count_counterexample :
    ¬ ((runOf ['a', 'b'] ['a', 'b'] true).length =
        (occList ['a', 'b'] ['a', 'b']).length + 1) := by decide

/-- C2 amended: for every non-empty query, the gaps-mode iterator yields
exactly the gap list `gapList`; its length is `k + 1` when the last match
ends strictly before the end of the content (taking the end of the last
match to be 0 when there is no match, so empty content gives `k` = 0 gaps),
and exactly `k` when the content ends at the last match's end. -/
theorem gaps_iterator_spec (q c : List Char) (hq : q ≠ [])
    (hlen : c.length < USIZE) :
    (∀ n : Nat, yieldAt (new_base q c true) n = (gapList q c)[n]?) ∧
    runOf q c true = gapList q c ∧
    (gapList q c).length = (occList q c).length +
      (if lastEnd (occList q c) 0 = c.length then 0 else 1) := by
  refine ⟨?_, runInv_eq_gapList hlen, ?_⟩
  · intro n
    have h0 := yieldAt_inv hq hlen n 0 (Nat.zero_le _)
    rw [Nat.sub_zero, List.drop_zero] at h0
    exact h0
  · have h0 := gapsAux_length hq (c.length + 1) 0 c (by omega)
    rw [Nat.zero_add] at h0
    exact h0

/-- Witness for the amended C2 at query `"a"`, content `"ab"`. -/
theorem gaps_iterator_spec_witness :
    ((['a'] : List Char) ≠ [] ∧ (['a', 'b'] : List Char).length < USIZE) ∧
    ((∀ n : Nat, yieldAt (new_base ['a'] ['a', 'b'] true) n =
        (gapList ['a'] ['a', 'b'])[n]?) ∧
      runOf ['a'] ['a', 'b'] true = gapList ['a'] ['a', 'b'] ∧
      (gapList ['a'] ['a', 'b']).length = (occList ['a'] ['a', 'b']).length +
        (if lastEnd (occList ['a'] ['a', 'b']) 0 = (['a', 'b'] : List Char).length
          then 0 else 1)) :=
  ⟨⟨by decide, by decide⟩,
    gaps_iterator_spec ['a'] ['a', 'b'] (by decide) (by decide)⟩

/-- C3: for every non-empty query, tagging every range yielded by the
matches-mode and gaps-mode iterators with its substring of the content,
sorting all tagged runs by start offset and concatenating the substrings
reconstructs the content exactly. -/
theorem reconstruction_spec (q c : List Char) (hq : q ≠ [])
    (hlen : c.length < USIZE) :
    ((sortRuns ((runOf q c false ++ runOf q c true).map
        (fun rg => (sliceAt c rg, rg.start)))).map (fun p => p.1)).flatten =
      c := by
  refine sorted_flatten_eq hq _ ?_
  exact (runs_perm_chain hq hlen false).map (fun rg => (sliceAt c rg, rg.start))

/-- Witness for C3 at query `"b"`, content `"ab"`. -/
theorem reconstruction_spec_witness :
    ((['b'] : List Char) ≠ [] ∧ (['a', 'b'] : List Char).length < USIZE) ∧
    ((sortRuns ((runOf ['b'] ['a', 'b'] false ++ runOf ['b'] ['a', 'b'] true).map
        (fun rg => (sliceAt ['a', 'b'] rg, rg.start)))).map
          (fun p => p.1)).flatten = ['a', 'b'] :=
  ⟨⟨by decide, by decide⟩,
    reconstruction_spec ['b'] ['a', 'b'] (by decide) (by decide)⟩

/-- C4 (as stated) is false for the empty query: in matches mode on empty
content the iterator yields `0..0` on every call, so there is no point after
which `next` stops producing items. -/
theorem empty_query_divergent :
    ¬ (∃ N, ∀ n, N ≤ n →
        yieldAt (new_base ([] : List Char) [] false) n = none) := by
  rintro ⟨N, hN⟩
  have hfix := stepN_fix (show (step (new_base ([] : List Char) [] false)).2 =
    new_base [] [] false from by decide)
  have h1 := hN N (Nat.le_refl N)
  rw [yieldAt, hfix N] at h1
  exact absurd h1 (by decide)

/-- C4 amended: for every non-empty query, both iterator modes yield only
finitely many ranges: after finitely many `next` calls every call returns
no item. -/
theorem iterator_finite (q c : List Char) (inv : Bool) (hq : q ≠ []) :
    ∃ N, ∀ n, N ≤ n → yieldAt (new_base q c inv) n = none := by
  cases inv with
  | false =>
      exact std_terminates c.length (new_base q c false) rfl rfl hq
        (Nat.le_refl _)
  | true =>
      exact inv_terminates c.length (new_base q c true) rfl rfl hq
        (Nat.le_refl _)

/-- Witness for the amended C4 at query `"a"`, content `"a"`, both modes. -/
theorem iterator_finite_witness :
    ((['a'] : List Char) ≠ []) ∧
    (∃ N, ∀ n, N ≤ n → yieldAt (new_base ['a'] ['a'] false) n = none) ∧
    (∃ N, ∀ n, N ≤ n → yieldAt (new_base ['a'] ['a'] true) n = none) :=
  ⟨by decide, iterator_finite ['a'] ['a'] false (by decide),
    iterator_finite ['a'] ['a'] true (by decide)⟩

/-- C5 (as stated) is false for the empty query: `transform_query` first
drains the matches iterator, and with query `""` and content `"a"` that
iterator yields an item on every call and never exhausts, so the Rust
`transform_query` never returns (it cannot return the content unchanged). -/
theorem transform_query_empty_query_divergent :
    ¬ (∃ N, yieldAt (new_base ([] : List Char) ['a'] false) N = none) := by
  rintro ⟨N, hN⟩
  have hfix := stepN_fix (show (step (new_base ([] : List Char) ['a'] false)).2 =
    new_base [] ['a'] false from by decide)
  rw [yieldAt, hfix N] at hN
  exact absurd hN (by decide)

/-- C5 amended: for every non-empty query, `transform_query` with the
identity transform returns the content unchanged. -/
theorem transform_query_id_spec (q c : List Char) (hq : q ≠ [])
    (hlen : c.length < USIZE) :
    transform_query q c (fun s => s) = c := by
  rw [transform_query]
  exact transform_id hq hlen false

/-- Witness for the amended C5 at query `"a"`, content `"ab"`. -/
theorem transform_query_id_spec_witness :
    ((['a'] : List Char) ≠ [] ∧ (['a', 'b'] : List Char).length < USIZE) ∧
    transform_query ['a'] ['a', 'b'] (fun s => s) = ['a', 'b'] :=
  ⟨⟨by decide, by decide⟩,
    transform_query_id_spec ['a'] ['a', 'b'] (by decide) (by decide)⟩

/-- C6 (as stated) is false for the empty query: the first pass of
`transform_all` drains the matches iterator, and with query `""` and
content `"b"` that iterator yields an item on every call and never
exhausts, so the Rust `transform_all` never returns. -/
theorem transform_all_empty_query_divergent :
    ¬ (∃ N, yieldAt (new_base ([] : List Char) ['b'] false) N = none) := by
  rintro ⟨N, hN⟩
  have hfix := stepN_fix (show (step (new_base ([] : List Char) ['b'] false)).2 =
    new_base [] ['b'] false from by decide)
  rw [yieldAt, hfix N] at hN
  exact absurd hN (by decide)

/-- C6 amended: for every non-empty query, the two-pass `transform_all`
with both transforms equal to the identity returns the content unchanged. -/
theorem transform_all_id_spec (q c : List Char) (hq : q ≠ [])
    (hlen : c.length < USIZE) :
    transform_all q c (fun s => s) (fun s => s) = c := by
  rw [transform_all]
  rw [transform_id hq hlen false]
  exact transform_id hq hlen true

/-- Witness for the amended C6 at query `"b"`, content `"ab"`. -/
theorem transform_all_id_spec_witness :
    ((['b'] : List Char) ≠ [] ∧ (['a', 'b'] : List Char).length < USIZE) ∧
    transform_all ['b'] ['a', 'b'] (fun s => s) (fun s => s) = ['a', 'b'] :=
  ⟨⟨by decide, by decide⟩,
    transform_all_id_spec ['b'] ['a', 'b'] (by decide) (by decide)⟩

/-- C7: every state reachable from construction by `next` calls, in either
mode, satisfies `removed_count + length current_content =
length full_content`; moreover each further `next` call only increases
`removed_count` and leaves `current_content` a suffix of the previous
window. -/
theorem iterator_state_invariant (q c : List Char) (inv : Bool) (n : Nat) :
    (stepN (new_base q c inv) n).removed_count +
        (stepN (new_base q c inv) n).current_content.length =
      (stepN (new_base q c inv) n).full_content.length ∧
    (stepN (new_base q c inv) n).removed_count ≤
      (step (stepN (new_base q c inv) n)).2.removed_count ∧
    List.IsSuffix (step (stepN (new_base q c inv) n)).2.current_content
      (stepN (new_base q c inv) n).current_content :=
  ⟨stepN_invariant q c inv n, (step_monotone _).1, (step_monotone _).2⟩

/-- C8: `shift_range` fails exactly when shifting an endpoint would
overflow (`Shift.up`) or underflow (`Shift.down`) the `usize` offset type
and otherwise returns the range with both endpoints shifted (total, never a
panic or wrap-around); `shift_range_in_content` additionally fails when the
shifted range's end exceeds the content length. -/
theorem shift_range_spec (rg : Rg) (k : Nat) (content : List Char) :
    (shift_range rg (Shift.up k) =
      if rg.start + k < USIZE ∧ rg.stop + k < USIZE
      then some (Rg.mk (rg.start + k) (rg.stop + k)) else none) ∧
    (shift_range rg (Shift.down k) =
      if k ≤ rg.start ∧ k ≤ rg.stop
      then some (Rg.mk (rg.start - k) (rg.stop - k)) else none) ∧
    (shift_range_in_content rg (Shift.up k) content =
      if rg.start + k < USIZE ∧ rg.stop + k < USIZE ∧
          rg.stop + k ≤ content.length
      then some (Rg.mk (rg.start + k) (rg.stop + k)) else none) ∧
    (shift_range_in_content rg (Shift.down k) content =
      if k ≤ rg.start ∧ k ≤ rg.stop ∧ rg.stop - k ≤ content.length
      then some (Rg.mk (rg.start - k) (rg.stop - k)) else none) :=
  ⟨shift_up_eq rg k, shift_down_eq rg k, shift_in_content_up_eq rg k content,
    shift_in_content_down_eq rg k content⟩

/-- C9 (as stated) is false: for query `"ab"` and content `"ab"` the
matches iterator yields `0..2` and the gaps iterator yields the zero-length
leading gap `0..0`, which share start offset 0. -/
theorem matches_gaps_tie_counterexample :
    ¬ (∀ (i j : Nat) (r g : Rg),
        yieldAt (new_base ['a', 'b'] ['a', 'b'] false) i = some r →
        yieldAt (new_base ['a', 'b'] ['a', 'b'] true) j = some g →
        r.start ≠ g.start) := by
  intro h
  exact h 0 0 (Rg.mk 0 2) (Rg.mk 0 0) (by decide) (by decide) rfl

/-- C9 amended: for every non-empty query, a range yielded by the
matches-mode iterator shares its start offset with a range yielded by the
gaps-mode iterator only when that gap range is zero-length (so in the
sort-by-start merge of `transform` any tie involves only an empty
segment). -/
theorem start_collision_only_empty_gap (q c : List Char) (hq : q ≠ [])
    (hlen : c.length < USIZE) :
    ∀ r ∈ runOf q c false, ∀ g ∈ runOf q c true,
      r.start = g.start → g.stop = g.start := by
  rw [runStd_eq_occList hlen, runInv_eq_gapList hlen]
  intro r hr g hg heq
  exact occs_gaps_start hq (c.length + 1) 0 c r hr g hg heq

/-- Witness for the amended C9 at query `"ab"`, content `"ab"`. -/
theorem start_collision_only_empty_gap_witness :
    ((['a', 'b'] : List Char) ≠ [] ∧
      (['a', 'b'] : List Char).length < USIZE) ∧
    (∀ r ∈ runOf ['a', 'b'] ['a', 'b'] false,
      ∀ g ∈ runOf ['a', 'b'] ['a', 'b'] true,
        r.start = g.start → g.stop = g.start) :=
  ⟨⟨by decide, by decide⟩,
    start_collision_only_empty_gap ['a', 'b'] ['a', 'b'] (by decide)
      (by decide)⟩

/-- C10: `is_within` returns `true` exactly when the range's end is at most
the content length; the range's start is never examined, so the result does
not depend on it. -/
theorem is_within_spec (content : List Char) (s e s' : Nat) :
    (is_within content (Rg.mk s e) = true ↔ e ≤ content.length) ∧
    is_within content (Rg.mk s e) = is_within content (Rg.mk s' e) := by
  refine ⟨?_, rfl⟩
  rw [is_within]
  dsimp only
  by_cases h : e > content.length
  · rw [if_pos h]
    simp only [Bool.false_eq_true, false_iff]
    omega
  · rw [if_neg h]
    simp only [eq_self_iff_true, true_iff]
    omega

end QueryRange
